import Mathlib

/-!
Shallow embedding of the `fp_decorators` library
(`fp_decorators/higher_order.py`, `fp_decorators/immutable.py`,
`fp_decorators/pure.py`) and proofs about its documented behavior.

Python values relevant to the claims (ints, `None`, logger objects and
nested lists) are modelled by the inductive type `Val`.  Python's `str`
of such a value is modelled at token granularity by `pyToks`: each
atomic value renders as one token and a list renders as a
bracketed, comma-separated token sequence, exactly the shape of the
CPython textual representation; on this domain the textual
representation is injective, which `pyToks_inj` proves.
-/

namespace FP

/-- A Python value from the domain the decorators are exercised on:
integers, `None`, `logging.Logger` handles (identified by an id) and
(nested) lists. -/
inductive Val where
  | vInt (n : Int)
  | vNone
  | vLogger (id : Nat)
  | vList (items : List Val)

mutual

/-- Structural (Python `==`) equality test on values. -/
def Val.beq : Val → Val → Bool
  | .vInt a, .vInt b => a == b
  | .vNone, .vNone => true
  | .vLogger a, .vLogger b => a == b
  | .vList a, .vList b => Val.beqList a b
  | _, _ => false

/-- Structural equality test on lists of values. -/
def Val.beqList : List Val → List Val → Bool
  | [], [] => true
  | a :: as_, b :: bs => Val.beq a b && Val.beqList as_ bs
  | _, _ => false

end

mutual

theorem Val.beq_iff : ∀ (a b : Val), Val.beq a b = true ↔ a = b
  | .vInt a, .vInt b => by simp [Val.beq]
  | .vInt _, .vNone => by simp [Val.beq]
  | .vInt _, .vLogger _ => by simp [Val.beq]
  | .vInt _, .vList _ => by simp [Val.beq]
  | .vNone, .vInt _ => by simp [Val.beq]
  | .vNone, .vNone => by simp [Val.beq]
  | .vNone, .vLogger _ => by simp [Val.beq]
  | .vNone, .vList _ => by simp [Val.beq]
  | .vLogger _, .vInt _ => by simp [Val.beq]
  | .vLogger _, .vNone => by simp [Val.beq]
  | .vLogger a, .vLogger b => by simp [Val.beq]
  | .vLogger _, .vList _ => by simp [Val.beq]
  | .vList _, .vInt _ => by simp [Val.beq]
  | .vList _, .vNone => by simp [Val.beq]
  | .vList _, .vLogger _ => by simp [Val.beq]
  | .vList a, .vList b => by simp [Val.beq, Val.beqList_iff a b]

theorem Val.beqList_iff : ∀ (a b : List Val), Val.beqList a b = true ↔ a = b
  | [], [] => by simp [Val.beqList]
  | [], _ :: _ => by simp [Val.beqList]
  | _ :: _, [] => by simp [Val.beqList]
  | a :: as_, b :: bs => by
    simp [Val.beqList, Val.beq_iff a b, Val.beqList_iff as_ bs]

end

instance Val.decEq : DecidableEq Val := fun a b =>
  decidable_of_iff (Val.beq a b = true) (Val.beq_iff a b)

/-- One token of the textual representation of a `Val`. -/
inductive Tok where
  | lbrack
  | rbrack
  | comma
  | tInt (n : Int)
  | tNone
  | tLogger (id : Nat)
  deriving DecidableEq

mutual

/-- Token-level model of Python's `str` on `Val`: an atom is a single
token, a list is `[` , its elements separated by `,` , `]`. -/
def pyToks : Val → List Tok
  | .vInt n => [.tInt n]
  | .vNone => [.tNone]
  | .vLogger i => [.tLogger i]
  | .vList l => .lbrack :: (pyToksList l ++ [.rbrack])

/-- Comma-separated token rendering of a list of values. -/
def pyToksList : List Val → List Tok
  | [] => []
  | [v] => pyToks v
  | v :: w :: rest => pyToks v ++ .comma :: pyToksList (w :: rest)

end

/-- The rendering of the tail of a list: nothing after the last
element, otherwise a comma followed by the remaining elements. -/
def pyToksTail : List Val → List Tok
  | [] => []
  | w :: u => Tok.comma :: pyToksList (w :: u)

theorem pyToksList_cons_eq (v : Val) (t : List Val) :
    pyToksList (v :: t) = pyToks v ++ pyToksTail t := by
  cases t <;> simp [pyToksList, pyToksTail]

/-- The rendering of a value is nonempty and never starts with a
closing bracket or a comma. -/
theorem pyToks_head (v : Val) :
    ∃ a as_, pyToks v = a :: as_ ∧ a ≠ Tok.rbrack ∧ a ≠ Tok.comma := by
  cases v <;> simp [pyToks]

mutual

/-- The token rendering of a value determines the value and the rest of
the token stream. -/
theorem pyToks_append_inj (v₁ v₂ : Val) (r₁ r₂ : List Tok)
    (h : pyToks v₁ ++ r₁ = pyToks v₂ ++ r₂) : v₁ = v₂ ∧ r₁ = r₂ := by
  cases v₁ <;> cases v₂ <;> simp [pyToks] at h ⊢
  case vInt.vInt => exact ⟨h.1, h.2⟩
  case vNone.vNone => exact h
  case vLogger.vLogger => exact ⟨h.1, h.2⟩
  case vList.vList l₁ l₂ =>
    have h' : pyToksList l₁ ++ Tok.rbrack :: r₁ = pyToksList l₂ ++ Tok.rbrack :: r₂ := by
      simpa using h
    have := pyToksList_append_inj l₁ l₂ r₁ r₂ h'
    exact ⟨this.1, this.2⟩

/-- The comma-separated rendering of a value list, up to a closing
bracket, determines the list and the rest of the stream. -/
theorem pyToksList_append_inj (l₁ l₂ : List Val) (r₁ r₂ : List Tok)
    (h : pyToksList l₁ ++ Tok.rbrack :: r₁ = pyToksList l₂ ++ Tok.rbrack :: r₂) :
    l₁ = l₂ ∧ r₁ = r₂ := by
  match l₁, l₂ with
  | [], [] =>
    simp [pyToksList] at h
    exact ⟨rfl, h⟩
  | [], v :: t =>
    exfalso
    obtain ⟨a, as_, ha, hrb, _⟩ := pyToks_head v
    match t with
    | [] =>
      simp [pyToksList, ha] at h
      exact hrb h.1.symm
    | w :: u =>
      simp [pyToksList, ha] at h
      exact hrb h.1.symm
  | v :: t, [] =>
    exfalso
    obtain ⟨a, as_, ha, hrb, _⟩ := pyToks_head v
    match t with
    | [] =>
      simp [pyToksList, ha] at h
      exact hrb h.1
    | w :: u =>
      simp [pyToksList, ha] at h
      exact hrb h.1
  | v₁ :: t₁, v₂ :: t₂ =>
    have h' : pyToks v₁ ++ (pyToksTail t₁ ++ Tok.rbrack :: r₁) =
        pyToks v₂ ++ (pyToksTail t₂ ++ Tok.rbrack :: r₂) := by
      rw [← List.append_assoc, ← List.append_assoc, ← pyToksList_cons_eq, ← pyToksList_cons_eq]
      exact h
    obtain ⟨hv, hr⟩ := pyToks_append_inj v₁ v₂ _ _ h'
    subst hv
    match t₁, t₂ with
    | [], [] =>
      simp [pyToksTail] at hr
      exact ⟨rfl, hr⟩
    | [], w :: u =>
      simp [pyToksTail] at hr
    | w :: u, [] =>
      simp [pyToksTail] at hr
    | w₁ :: u₁, w₂ :: u₂ =>
      simp [pyToksTail] at hr
      have := pyToksList_append_inj (w₁ :: u₁) (w₂ :: u₂) r₁ r₂ hr
      exact ⟨by rw [this.1], this.2⟩

end

/-- On the modelled value domain the textual representation is
injective: distinct values always render to distinct text (so the
decorators' string-comparison fallback agrees with structural
comparison). -/
theorem pyToks_inj (a b : Val) (h : pyToks a = pyToks b) : a = b :=
  (pyToks_append_inj a b [] [] (by simpa using h)).1

/-- One before/after comparison exactly as both decorators perform it
(`immutable.py` lines 59-72, `pure.py` lines 52-70): the structural
inequality raises a `ValueError` inside the `try` block, the
`except Exception` handler catches that very error and re-raises only
when the two textual representations also differ.  The net observable
effect is: a violation is reported iff the values differ structurally
and textually. -/
def mutationDetected (before after : Val) : Bool :=
  if before = after then false
  else if pyToks before = pyToks after then false
  else true

/-- On the modelled domain the composite check of the source is
equivalent to plain structural inequality. -/
theorem mutationDetected_iff (a b : Val) : mutationDetected a b = true ↔ a ≠ b := by
  unfold mutationDetected
  by_cases hab : a = b
  · simp [hab]
  · by_cases ht : pyToks a = pyToks b
    · exact absurd (pyToks_inj a b ht) hab
    · simp [hab, ht]

theorem mutationDetected_self (a : Val) : mutationDetected a a = false := by
  simp [mutationDetected]

/-!
## `immutable` (src/fp_decorators/immutable.py)

The wrapper is modelled on its default path (`deep_copy=True`,
`freeze_input=False`).  Deep copies have value semantics here, so the
pre-call snapshot of an argument is simply its pre-call value.  A
callable is modelled by its declared name and parameter names together
with the observable effect of one invocation: the post-call state of
the positional tuple's elements (`argEffect`, the elements are mutated
in place, the tuple's length cannot change), the post-call state of
each keyword argument's value (`kwEffect`, the dict's keys cannot
change because the dict itself is never handed to the callee), and the
returned result (`ret`). -/

/-- Model of a callable as seen by the `immutable` wrapper. -/
structure ImmFunc where
  name : String
  paramNames : List String
  argEffect : List Val → List Val
  kwEffect : List (String × Val) → String → Val → Val
  ret : List Val → List (String × Val) → Val

/-- `param_names[i] if i < len(param_names) else f"args[i]"`. -/
def immParamName (fn : ImmFunc) (i : Nat) : String :=
  match fn.paramNames.get? i with
  | some s => s
  | none => "args[" ++ toString i ++ "]"

/-- The positional-argument loop of the wrapper: walk
`zip(args_before, args_after)` with the running index and raise on the
first detected mutation. -/
def immCheckArgs (fn : ImmFunc) : Nat → List Val → List Val → Except String Unit
  | _, [], _ => .ok ()
  | _, _, [] => .ok ()
  | i, b :: bs, a :: as_ =>
    if mutationDetected b a then
      .error ("Immutability violation in " ++ fn.name ++
        ": modified input positional argument '" ++ immParamName fn i ++ "'")
    else immCheckArgs fn (i + 1) bs as_

/-- The keyword-argument loop of the wrapper: for every key of the
snapshot compare the snapshotted value with the post-call value. -/
def immCheckKw (fn : ImmFunc) (eff : String → Val → Val) :
    List (String × Val) → Except String Unit
  | [] => .ok ()
  | (k, v) :: rest =>
    if mutationDetected v (eff k v) then
      .error ("Immutability violation in " ++ fn.name ++
        ": modified input keyword argument '" ++ k ++ "'")
    else immCheckKw fn eff rest

/-- One invocation of `immutable(fn)` with the default options: deep
copy the arguments, snapshot them, call the function on the copies,
then compare every positional and keyword argument with its snapshot,
raising a `ValueError` on the first mismatch, and otherwise return the
callable's result. -/
def immutableCall (fn : ImmFunc) (args : List Val) (kwargs : List (String × Val)) :
    Except String Val :=
  let argsBefore := args
  let kwargsBefore := kwargs
  let argsAfter := fn.argEffect args
  let result := fn.ret args kwargs
  match immCheckArgs fn 0 argsBefore argsAfter with
  | .error e => .error e
  | .ok _ =>
    match immCheckKw fn (fn.kwEffect kwargs) kwargsBefore with
    | .error e => .error e
    | .ok _ => .ok result

theorem immCheckArgs_error_iff (fn : ImmFunc) :
    ∀ (i : Nat) (bs as_ : List Val),
      (∃ e, immCheckArgs fn i bs as_ = .error e) ↔ ∃ p ∈ bs.zip as_, p.1 ≠ p.2 := by
  intro i bs
  induction bs generalizing i with
  | nil => intro as_; simp [immCheckArgs]
  | cons b bs ih =>
    intro as_
    cases as_ with
    | nil => simp [immCheckArgs]
    | cons a as_ =>
      by_cases hd : mutationDetected b a = true
      · have hne : b ≠ a := (mutationDetected_iff b a).mp hd
        simp [immCheckArgs, hd]
        exact Or.inl hne
      · have heq : b = a := by
          by_contra hne
          exact hd ((mutationDetected_iff b a).mpr hne)
        subst heq
        simp [immCheckArgs, mutationDetected_self, ih (i + 1)]

theorem immCheckKw_error_iff (fn : ImmFunc) (eff : String → Val → Val) :
    ∀ (l : List (String × Val)),
      (∃ e, immCheckKw fn eff l = .error e) ↔ ∃ p ∈ l, p.2 ≠ eff p.1 p.2 := by
  intro l
  induction l with
  | nil => simp [immCheckKw]
  | cons p rest ih =>
    obtain ⟨k, v⟩ := p
    by_cases hd : mutationDetected v (eff k v) = true
    · have hne := (mutationDetected_iff _ _).mp hd
      simp [immCheckKw, hd]
      exact Or.inl hne
    · have heq : v = eff k v := by
        by_contra hne
        exact hd ((mutationDetected_iff _ _).mpr hne)
      simp [immCheckKw, hd, ih]
      intro h0
      exact absurd heq h0

theorem immCheckArgs_self (fn : ImmFunc) :
    ∀ (i : Nat) (l : List Val), immCheckArgs fn i l l = .ok () := by
  intro i l
  induction l generalizing i with
  | nil => simp [immCheckArgs]
  | cons a l ih => simp [immCheckArgs, mutationDetected_self, ih]

theorem immCheckKw_preserve (fn : ImmFunc) (eff : String → Val → Val) :
    ∀ (l : List (String × Val)), (∀ p ∈ l, eff p.1 p.2 = p.2) →
      immCheckKw fn eff l = .ok () := by
  intro l
  induction l with
  | nil => intro _; simp [immCheckKw]
  | cons p rest ih =>
    intro h
    obtain ⟨k, v⟩ := p
    have h1 : eff k v = v := h (k, v) (List.mem_cons_self _ _)
    simp [immCheckKw, h1, mutationDetected_self,
      ih (fun q hq => h q (List.mem_cons_of_mem _ hq))]

/-- C1: `immutable(f)` raises a contract violation if and only if some
positional or keyword argument's post-call state differs from its
pre-call snapshot; and a callable that leaves its arguments untouched
(for example one that returns a modified deep copy) never raises — its
result is returned unchanged. -/
theorem immutable_violation_iff_argument_mutated
    (fn : ImmFunc) (args : List Val) (kwargs : List (String × Val)) :
    ((∃ e, immutableCall fn args kwargs = .error e) ↔
      (∃ p ∈ args.zip (fn.argEffect args), p.1 ≠ p.2) ∨
      (∃ p ∈ kwargs, p.2 ≠ fn.kwEffect kwargs p.1 p.2))
    ∧ (fn.argEffect args = args →
       (∀ p ∈ kwargs, fn.kwEffect kwargs p.1 p.2 = p.2) →
       immutableCall fn args kwargs = .ok (fn.ret args kwargs)) := by
  have hAiff := immCheckArgs_error_iff fn 0 args (fn.argEffect args)
  have hKiff := immCheckKw_error_iff fn (fn.kwEffect kwargs) kwargs
  constructor
  · cases hA : immCheckArgs fn 0 args (fn.argEffect args) with
    | error e =>
      constructor
      · intro _
        exact Or.inl (hAiff.mp ⟨e, hA⟩)
      · intro _
        exact ⟨e, by simp [immutableCall, hA]⟩
    | ok u =>
      cases hK : immCheckKw fn (fn.kwEffect kwargs) kwargs with
      | error e =>
        constructor
        · intro _
          exact Or.inr (hKiff.mp ⟨e, hK⟩)
        · intro _
          exact ⟨e, by simp [immutableCall, hA, hK]⟩
      | ok u2 =>
        constructor
        · rintro ⟨e, he⟩
          simp [immutableCall, hA, hK] at he
        · rintro (hArg | hKw)
          · obtain ⟨e, he⟩ := hAiff.mpr hArg
            rw [hA] at he
            exact absurd he (by simp)
          · obtain ⟨e, he⟩ := hKiff.mpr hKw
            rw [hK] at he
            exact absurd he (by simp)
  · intro hargs hkw
    simp [immutableCall, hargs, immCheckArgs_self,
      immCheckKw_preserve fn (fn.kwEffect kwargs) kwargs hkw]

/-- The spec's example of a compliant callable: it never touches its
argument and returns a modified deep copy instead. -/
def copyAppendFn : ImmFunc where
  name := "copy_append"
  paramNames := ["lst"]
  argEffect := fun args => args
  kwEffect := fun _ _ v => v
  ret := fun args _ =>
    match args with
    | [Val.vList xs] => Val.vList (xs ++ [Val.vInt 4])
    | _ => Val.vNone

theorem immutable_violation_iff_argument_mutated_witness :
    immutableCall copyAppendFn [Val.vList [Val.vInt 1, Val.vInt 2, Val.vInt 3]] [] =
      .ok (Val.vList [Val.vInt 1, Val.vInt 2, Val.vInt 3, Val.vInt 4]) :=
  (immutable_violation_iff_argument_mutated copyAppendFn
    [Val.vList [Val.vInt 1, Val.vInt 2, Val.vInt 3]] []).2 rfl (by simp)

/-!
## `pure` (src/fp_decorators/pure.py)

A callable wrapped by `pure` is modelled by its name, declared
parameter names, the set of global names its closure references
(`inspect.getclosurevars(fn).globals`), and the observable outcome of
one invocation: post-call state of the positional arguments, of every
keyword argument's value, of the globals dict, and the returned
result.  Deep copies again have value semantics, so snapshots are just
pre-call values.  The `random.getstate()` bookkeeping of the source
(lines 33-35 and 92-97) compares the two random states and then does
nothing in either branch, so it has no observable effect and is not
modelled. -/

/-- `isinstance(v, logging.Logger)`. -/
def isLogger : Val → Bool
  | .vLogger _ => true
  | _ => false

/-- Observable outcome of invoking the wrapped callable once. -/
structure CallOutcome where
  argsAfter : List Val
  kwAfter : String → Val → Val
  globalsAfter : List (String × Val)
  result : Val

/-- Model of a callable as seen by the `pure` wrapper. -/
structure PureFunc where
  name : String
  paramNames : List String
  closureGlobals : List String
  run : List Val → List (String × Val) → List (String × Val) → CallOutcome

/-- The capture filter for one closure-referenced global name
(`pure.py` lines 39-46): the name is snapshotted when it is bound in
`fn.__globals__`, is not the name `random`, and is not a logger while
logging is allowed. -/
def captureGlobal (globals : List (String × Val)) (allowLogging : Bool) (name : String) :
    Option (String × Val) :=
  match globals.lookup name with
  | none => none
  | some v =>
    if name = "random" then none
    else if allowLogging && isLogger v then none
    else some (name, v)

/-- The snapshot of external state taken before the call: every
closure-referenced global that passes the capture filter, in closure
order. -/
def pureCapturedGlobals (fn : PureFunc) (globals : List (String × Val))
    (allowLogging : Bool) : List (String × Val) :=
  fn.closureGlobals.filterMap (captureGlobal globals allowLogging)

/-- `param_names[i] if i < len(param_names) else f"args[i]"`. -/
def pureParamName (fn : PureFunc) (i : Nat) : String :=
  match fn.paramNames.get? i with
  | some s => s
  | none => "args[" ++ toString i ++ "]"

/-- The skip condition of the positional-argument loop: the parameter
name is in `ignore_params`, or the current value is a logger while
logging is allowed. -/
def pureArgSkip (fn : PureFunc) (ignoreParams : List String) (allowLogging : Bool)
    (i : Nat) (current : Val) : Bool :=
  (match fn.paramNames.get? i with
   | some p => ignoreParams.contains p
   | none => false) || (allowLogging && isLogger current)

/-- Positional-argument verification of the `pure` wrapper
(`pure.py` lines 52-70). -/
def pureCheckArgs (fn : PureFunc) (ignoreParams : List String) (allowLogging : Bool) :
    Nat → List Val → List Val → Except String Unit
  | _, [], _ => .ok ()
  | _, _, [] => .ok ()
  | i, b :: bs, c :: cs =>
    if pureArgSkip fn ignoreParams allowLogging i c then
      pureCheckArgs fn ignoreParams allowLogging (i + 1) bs cs
    else if mutationDetected b c then
      .error ("Pure function violation in " ++ fn.name ++
        ": modified input positional argument '" ++ pureParamName fn i ++ "'")
    else pureCheckArgs fn ignoreParams allowLogging (i + 1) bs cs

/-- Keyword-argument verification of the `pure` wrapper
(`pure.py` lines 73-90). -/
def pureCheckKw (fn : PureFunc) (ignoreParams : List String) (allowLogging : Bool)
    (eff : String → Val → Val) : List (String × Val) → Except String Unit
  | [] => .ok ()
  | (k, v) :: rest =>
    if ignoreParams.contains k then
      pureCheckKw fn ignoreParams allowLogging eff rest
    else if allowLogging && isLogger (eff k v) then
      pureCheckKw fn ignoreParams allowLogging eff rest
    else if mutationDetected v (eff k v) then
      .error ("Pure function violation in " ++ fn.name ++
        ": modified input keyword argument '" ++ k ++ "'")
    else pureCheckKw fn ignoreParams allowLogging eff rest

/-- Global-binding verification of the `pure` wrapper (`pure.py` lines
100-113).  A name that vanished from the globals dict surfaces as an
uncaught `KeyError` (the handler's second dictionary access). -/
def pureCheckGlobals (fnName : String) (allowRandom : Bool)
    (globalsAfter : List (String × Val)) : List (String × Val) → Except String Unit
  | [] => .ok ()
  | (n, orig) :: rest =>
    if n = "random" ∧ allowRandom = true then
      pureCheckGlobals fnName allowRandom globalsAfter rest
    else
      match globalsAfter.lookup n with
      | none => .error ("KeyError: '" ++ n ++ "'")
      | some cur =>
        if mutationDetected orig cur then
          .error ("Pure function violation in " ++ fnName ++
            ": modified global variable '" ++ n ++ "'")
        else pureCheckGlobals fnName allowRandom globalsAfter rest

/-- One invocation of `pure(fn)`: snapshot the arguments and the
tracked globals, call the function, then verify positional arguments,
keyword arguments and tracked globals in that order, raising on the
first mismatch and otherwise returning the callable's result. -/
def pureCall (fn : PureFunc) (ignoreParams : List String)
    (allowRandom allowLogging : Bool) (args : List Val)
    (kwargs : List (String × Val)) (globals : List (String × Val)) :
    Except String Val :=
  let argsCopy := args
  let kwargsCopy := kwargs
  let captured := pureCapturedGlobals fn globals allowLogging
  let out := fn.run args kwargs globals
  match pureCheckArgs fn ignoreParams allowLogging 0 argsCopy out.argsAfter with
  | .error e => .error e
  | .ok _ =>
    match pureCheckKw fn ignoreParams allowLogging out.kwAfter kwargsCopy with
    | .error e => .error e
    | .ok _ =>
      match pureCheckGlobals fn.name allowRandom out.globalsAfter captured with
      | .error e => .error e
      | .ok _ => .ok out.result

theorem pureCheckArgs_self (fn : PureFunc) (ip : List String) (aL : Bool) :
    ∀ (i : Nat) (l : List Val), pureCheckArgs fn ip aL i l l = .ok () := by
  intro i l
  induction l generalizing i with
  | nil => simp [pureCheckArgs]
  | cons a l ih =>
    by_cases hs : pureArgSkip fn ip aL i a = true
    · simp [pureCheckArgs, hs, ih]
    · simp [pureCheckArgs, hs, mutationDetected_self, ih]

theorem pureCheckKw_preserve (fn : PureFunc) (ip : List String) (aL : Bool)
    (eff : String → Val → Val) :
    ∀ (l : List (String × Val)), (∀ p ∈ l, eff p.1 p.2 = p.2) →
      pureCheckKw fn ip aL eff l = .ok () := by
  intro l
  induction l with
  | nil => intro _; simp [pureCheckKw]
  | cons p rest ih =>
    intro h
    obtain ⟨k, v⟩ := p
    have h1 : eff k v = v := h (k, v) (List.mem_cons_self _ _)
    have htail := ih (fun q hq => h q (List.mem_cons_of_mem _ hq))
    by_cases hik : k ∈ ip
    · simp [pureCheckKw, hik, htail]
    · simp [pureCheckKw, hik, h1, mutationDetected_self, htail]

theorem pureCheckGlobals_ok (fnName : String) (aR : Bool)
    (after : List (String × Val)) :
    ∀ (l : List (String × Val)), (∀ p ∈ l, after.lookup p.1 = some p.2) →
      pureCheckGlobals fnName aR after l = .ok () := by
  intro l
  induction l with
  | nil => intro _; simp [pureCheckGlobals]
  | cons p rest ih =>
    intro h
    obtain ⟨n, orig⟩ := p
    have h1 : after.lookup n = some orig := h (n, orig) (List.mem_cons_self _ _)
    have htail := ih (fun q hq => h q (List.mem_cons_of_mem _ hq))
    by_cases hskip : n = "random" ∧ aR = true
    · obtain ⟨hn, haR⟩ := hskip
      subst haR
      simp [pureCheckGlobals, hn, htail]
    · simp [pureCheckGlobals, hskip, h1, mutationDetected_self, htail]

theorem pureCheckGlobals_error (fnName : String) (aR : Bool)
    (after : List (String × Val)) (g : String) :
    ∀ (l : List (String × Val)),
      (∀ p ∈ l, p.1 ≠ "random") →
      (∀ p ∈ l, p.1 ≠ g → after.lookup p.1 = some p.2) →
      (∀ p ∈ l, p.1 = g → ∃ cur, after.lookup g = some cur ∧ cur ≠ p.2) →
      (∃ p ∈ l, p.1 = g) →
      pureCheckGlobals fnName aR after l =
        .error ("Pure function violation in " ++ fnName ++
          ": modified global variable '" ++ g ++ "'") := by
  intro l
  induction l with
  | nil => intro _ _ _ hex; simp at hex
  | cons p rest ih =>
    intro hnr hun hch hex
    obtain ⟨n, orig⟩ := p
    have hnrand : n ≠ "random" := hnr (n, orig) (List.mem_cons_self _ _)
    have hskip : ¬(n = "random" ∧ aR = true) := fun hc => hnrand hc.1
    by_cases hng : n = g
    · obtain ⟨cur, hcur, hcne⟩ := hch (n, orig) (List.mem_cons_self _ _) hng
      subst hng
      have horig : mutationDetected orig cur = true :=
        (mutationDetected_iff orig cur).mpr (fun hc => hcne hc.symm)
      simp [pureCheckGlobals, hskip, hcur, horig]
    · have h1 : after.lookup n = some orig :=
        hun (n, orig) (List.mem_cons_self _ _) hng
      have hex' : ∃ p ∈ rest, p.1 = g := by
        obtain ⟨q, hq, hqg⟩ := hex
        cases List.mem_cons.mp hq with
        | inl h0 =>
          rw [h0] at hqg
          exact absurd hqg hng
        | inr h0 => exact ⟨q, h0, hqg⟩
      have htail := ih (fun q hq => hnr q (List.mem_cons_of_mem _ hq))
        (fun q hq => hun q (List.mem_cons_of_mem _ hq))
        (fun q hq => hch q (List.mem_cons_of_mem _ hq)) hex'
      simp [pureCheckGlobals, hskip, h1, mutationDetected_self, htail]

theorem captureGlobal_eq_some (globals : List (String × Val)) (aL : Bool)
    (name : String) (p : String × Val)
    (h : captureGlobal globals aL name = some p) :
    p.1 = name ∧ name ≠ "random" ∧ globals.lookup name = some p.2 := by
  cases hl : globals.lookup name with
  | none => simp [captureGlobal, hl] at h
  | some v =>
    by_cases hr : name = "random"
    · subst hr
      simp [captureGlobal, hl] at h
    · by_cases hlog : (aL && isLogger v) = true
      · simp [captureGlobal, hl, hr, hlog] at h
      · simp [captureGlobal, hl, hr, hlog] at h
        obtain rfl : (name, v) = p := h
        exact ⟨rfl, hr, rfl⟩

theorem mem_pureCapturedGlobals (fn : PureFunc) (globals : List (String × Val))
    (aL : Bool) (p : String × Val) (h : p ∈ pureCapturedGlobals fn globals aL) :
    captureGlobal globals aL p.1 = some p ∧ p.1 ≠ "random" ∧
      globals.lookup p.1 = some p.2 := by
  obtain ⟨a, _, hcap⟩ := List.mem_filterMap.mp h
  obtain ⟨h1, h2, h3⟩ := captureGlobal_eq_some globals aL a p hcap
  exact ⟨h1 ▸ hcap, h1 ▸ h2, h1 ▸ h3⟩

/-- Two captured entries with the same name are equal: each one is the
value the snapshot read from the globals dict under that name. -/
theorem pureCapturedGlobals_name_inj (fn : PureFunc) (globals : List (String × Val))
    (aL : Bool) (p q : String × Val) (hp : p ∈ pureCapturedGlobals fn globals aL)
    (hq : q ∈ pureCapturedGlobals fn globals aL) (hname : p.1 = q.1) : p = q := by
  have h1 := (mem_pureCapturedGlobals fn globals aL p hp).1
  have h2 := (mem_pureCapturedGlobals fn globals aL q hq).1
  rw [hname] at h1
  exact Option.some.inj (h1.symm.trans h2)

/-- C2: when the wrapped callable leaves its (tracked) arguments
untouched, `pure(f)` raises a contract violation naming a tracked
external binding whenever the invocation changes that binding's value
(first conjunct: the changed binding is a captured closure-referenced
global — hence neither `random` nor, with logging allowed, a logger —
and every other captured binding is unchanged, so the violation names
exactly that binding); and when no tracked binding and no tracked
argument changed, the wrapper returns the callable's result without
raising (second conjunct). -/
theorem pure_global_mutation_detected
    (fn : PureFunc) (ignoreParams : List String) (allowRandom allowLogging : Bool)
    (args : List Val) (kwargs : List (String × Val)) (globals : List (String × Val)) :
    (((fn.run args kwargs globals).argsAfter = args →
      (∀ p ∈ kwargs, (fn.run args kwargs globals).kwAfter p.1 p.2 = p.2) →
      ∀ g gBefore gAfter,
        (g, gBefore) ∈ pureCapturedGlobals fn globals allowLogging →
        (fn.run args kwargs globals).globalsAfter.lookup g = some gAfter →
        gAfter ≠ gBefore →
        (∀ p ∈ pureCapturedGlobals fn globals allowLogging, p.1 ≠ g →
          (fn.run args kwargs globals).globalsAfter.lookup p.1 = some p.2) →
        pureCall fn ignoreParams allowRandom allowLogging args kwargs globals =
          .error ("Pure function violation in " ++ fn.name ++
            ": modified global variable '" ++ g ++ "'")))
    ∧ ((fn.run args kwargs globals).argsAfter = args →
       (∀ p ∈ kwargs, (fn.run args kwargs globals).kwAfter p.1 p.2 = p.2) →
       (∀ p ∈ pureCapturedGlobals fn globals allowLogging,
         (fn.run args kwargs globals).globalsAfter.lookup p.1 = some p.2) →
       pureCall fn ignoreParams allowRandom allowLogging args kwargs globals =
         .ok (fn.run args kwargs globals).result) := by
  constructor
  · intro hargs hkw g gBefore gAfter hmem hlook hne hothers
    have hA : pureCheckArgs fn ignoreParams allowLogging 0 args
        (fn.run args kwargs globals).argsAfter = .ok () := by
      rw [hargs]; exact pureCheckArgs_self fn ignoreParams allowLogging 0 args
    have hK : pureCheckKw fn ignoreParams allowLogging
        (fn.run args kwargs globals).kwAfter kwargs = .ok () :=
      pureCheckKw_preserve fn ignoreParams allowLogging _ kwargs hkw
    have hG : pureCheckGlobals fn.name allowRandom
        (fn.run args kwargs globals).globalsAfter
        (pureCapturedGlobals fn globals allowLogging) =
        .error ("Pure function violation in " ++ fn.name ++
          ": modified global variable '" ++ g ++ "'") := by
      apply pureCheckGlobals_error
      · intro p hp
        exact (mem_pureCapturedGlobals fn globals allowLogging p hp).2.1
      · exact hothers
      · intro p hp hpg
        have hpe : p = (g, gBefore) :=
          pureCapturedGlobals_name_inj fn globals allowLogging p (g, gBefore) hp hmem hpg
        subst hpe
        exact ⟨gAfter, hlook, hne⟩
      · exact ⟨(g, gBefore), hmem, rfl⟩
    simp [pureCall, hA, hK, hG]
  · intro hargs hkw hglob
    have hA : pureCheckArgs fn ignoreParams allowLogging 0 args
        (fn.run args kwargs globals).argsAfter = .ok () := by
      rw [hargs]; exact pureCheckArgs_self fn ignoreParams allowLogging 0 args
    have hK : pureCheckKw fn ignoreParams allowLogging
        (fn.run args kwargs globals).kwAfter kwargs = .ok () :=
      pureCheckKw_preserve fn ignoreParams allowLogging _ kwargs hkw
    have hG : pureCheckGlobals fn.name allowRandom
        (fn.run args kwargs globals).globalsAfter
        (pureCapturedGlobals fn globals allowLogging) = .ok () :=
      pureCheckGlobals_ok fn.name allowRandom _ _ hglob
    simp [pureCall, hA, hK, hG]

/-- The spec's example of an impure callable: it rebinds the external
global `global_counter`, leaving its argument untouched. -/
def counterFn : PureFunc where
  name := "impure_counter"
  paramNames := ["increment"]
  closureGlobals := ["global_counter"]
  run := fun args _ _ =>
    { argsAfter := args
      kwAfter := fun _ v => v
      globalsAfter := [("global_counter", Val.vInt 1)]
      result := Val.vInt 1 }

theorem pure_global_mutation_detected_witness :
    pureCall counterFn [] false true [Val.vInt 1] [] [("global_counter", Val.vInt 0)] =
      .error ("Pure function violation in impure_counter: " ++
        "modified global variable 'global_counter'") := by
  have hcap : pureCapturedGlobals counterFn [("global_counter", Val.vInt 0)] true =
      [("global_counter", Val.vInt 0)] := rfl
  exact (pure_global_mutation_detected counterFn [] false true [Val.vInt 1] []
    [("global_counter", Val.vInt 0)]).1 rfl (by simp)
    "global_counter" (Val.vInt 0) (Val.vInt 1)
    (by rw [hcap]; simp)
    rfl (by decide)
    (by rw [hcap]; simp)

/-- A callable whose closure references the global binding `random` and
whose invocation changes that binding's state (modelled as a rebound
value), leaving its arguments untouched. -/
def randFn : PureFunc where
  name := "uses_random"
  paramNames := []
  closureGlobals := ["random"]
  run := fun args _ _ =>
    { argsAfter := args
      kwAfter := fun _ v => v
      globalsAfter := [("random", Val.vInt 1)]
      result := Val.vInt 42 }

/-- C3 counterexample: with `allow_random = False` the claim says a
change to the closure-referenced `random` binding is a tracked mismatch
that raises; but the capture filter (`pure.py` line 40, `name !=
'random'`) excludes the name unconditionally, so the call returns
normally even though the binding changed from 0 to 1. -/
theorem pure_random_tracked_when_disallowed_counterexample :
    pureCall randFn [] false true [] [] [("random", Val.vInt 0)] =
      .ok (Val.vInt 42) := rfl

/-- C3 (amended): `pure(f)` excludes the designated random-number-source
binding from external-state tracking unconditionally, not only when
`allowRandom` is true.  First conjunct: no captured binding is ever
named `random`, whatever the flags.  Second conjunct: whenever the
tracked arguments and every captured binding are unchanged, the wrapper
returns the callable's result — regardless of `allowRandom` and of any
change to the `random` binding (which the hypotheses do not constrain,
since it is never captured). -/
theorem pure_random_excluded_unconditionally
    (fn : PureFunc) (ignoreParams : List String) (allowRandom allowLogging : Bool)
    (args : List Val) (kwargs : List (String × Val)) (globals : List (String × Val)) :
    (∀ p ∈ pureCapturedGlobals fn globals allowLogging, p.1 ≠ "random")
    ∧ ((fn.run args kwargs globals).argsAfter = args →
       (∀ p ∈ kwargs, (fn.run args kwargs globals).kwAfter p.1 p.2 = p.2) →
       (∀ p ∈ pureCapturedGlobals fn globals allowLogging,
         (fn.run args kwargs globals).globalsAfter.lookup p.1 = some p.2) →
       pureCall fn ignoreParams allowRandom allowLogging args kwargs globals =
         .ok (fn.run args kwargs globals).result) := by
  constructor
  · intro p hp
    exact (mem_pureCapturedGlobals fn globals allowLogging p hp).2.1
  · intro hargs hkw hglob
    have hA : pureCheckArgs fn ignoreParams allowLogging 0 args
        (fn.run args kwargs globals).argsAfter = .ok () := by
      rw [hargs]; exact pureCheckArgs_self fn ignoreParams allowLogging 0 args
    have hK : pureCheckKw fn ignoreParams allowLogging
        (fn.run args kwargs globals).kwAfter kwargs = .ok () :=
      pureCheckKw_preserve fn ignoreParams allowLogging _ kwargs hkw
    have hG : pureCheckGlobals fn.name allowRandom
        (fn.run args kwargs globals).globalsAfter
        (pureCapturedGlobals fn globals allowLogging) = .ok () :=
      pureCheckGlobals_ok fn.name allowRandom _ _ hglob
    simp [pureCall, hA, hK, hG]

theorem pure_random_excluded_unconditionally_witness :
    pureCall randFn [] true true [] [] [("random", Val.vInt 0)] =
      .ok (Val.vInt 42) := by
  have hcap : pureCapturedGlobals randFn [("random", Val.vInt 0)] true = [] := rfl
  exact (pure_random_excluded_unconditionally randFn [] true true [] []
    [("random", Val.vInt 0)]).2 rfl (by simp) (by rw [hcap]; simp)

/-!
## `memoize` (src/fp_decorators/higher_order.py, lines 154-210)

The cache is a Python dict keyed by the argument-derived cache key; it
is modelled as an insertion-ordered association list with the key
abstracted to `Nat`.  When `max_size` is set, the recency list `order`
holds the keys from least to most recently used.  `clear_cache`
(line 204) is `cache.clear()` — it does not touch `order`. -/

/-- Cache state of one memoized wrapper. -/
structure MemoState where
  cache : List (Nat × Val)
  order : List Nat
  deriving DecidableEq

/-- `key in cache` / `cache[key]`. -/
def cacheLookup (c : List (Nat × Val)) (k : Nat) : Option Val := c.lookup k

/-- `cache[key] = result`: dict item assignment (update in place when
the key is present, else append at the end). -/
def cacheSet (c : List (Nat × Val)) (k : Nat) (v : Val) : List (Nat × Val) :=
  if (c.lookup k).isSome then c.map (fun p => if p.1 = k then (k, v) else p)
  else c ++ [(k, v)]

/-- `del cache[key]`: `none` models the `KeyError` raised when the key
is absent. -/
def cacheDel (c : List (Nat × Val)) (k : Nat) : Option (List (Nat × Val)) :=
  if (c.lookup k).isSome then some (c.filter (fun p => p.1 != k)) else none

/-- One invocation of the memoized wrapper (`higher_order.py` lines
174-201) with an already-computed cache key.  Returns the result,
whether the underlying function was invoked, and the new state; an
`Except.error` models the uncaught `KeyError` that `del
cache[oldest_key]` raises when the evicted key is not in the dict.  (On
the hit path `order.remove(key)` is modelled by `List.erase`; a hit
implies the key is present, so the removal never fails on states the
wrapper itself produces.) -/
def memoStep (fn : Nat → Val) (maxSize : Option Nat) (st : MemoState) (key : Nat) :
    Except String (Val × Bool × MemoState) :=
  match cacheLookup st.cache key with
  | some v =>
    match maxSize with
    | some _ => .ok (v, false, ⟨st.cache, st.order.erase key ++ [key]⟩)
    | none => .ok (v, false, st)
  | none =>
    let result := fn key
    let cache1 := cacheSet st.cache key result
    match maxSize with
    | none => .ok (result, true, ⟨cache1, st.order⟩)
    | some m =>
      let order1 := st.order ++ [key]
      if m < order1.length then
        match order1 with
        | [] => .ok (result, true, ⟨cache1, []⟩)
        | oldest :: rest =>
          match cacheDel cache1 oldest with
          | some cache2 => .ok (result, true, ⟨cache2, rest⟩)
          | none => .error ("KeyError: " ++ toString oldest)
      else .ok (result, true, ⟨cache1, order1⟩)

/-- `memoized.clear_cache()` (`higher_order.py` line 204): empties the
entry dict only; the recency list is left as it is. -/
def clearCache (st : MemoState) : MemoState := ⟨[], st.order⟩

/-- Run the memoized wrapper over a sequence of keys, collecting which
calls invoked the underlying function. -/
def memoRun (fn : Nat → Val) (maxSize : Option Nat) :
    MemoState → List Nat → Except String (MemoState × List Bool)
  | st, [] => .ok (st, [])
  | st, k :: ks =>
    match memoStep fn maxSize st k with
    | .error e => .error e
    | .ok (_, inv, st') =>
      match memoRun fn maxSize st' ks with
      | .error e => .error e
      | .ok (stF, invs) => .ok (stF, inv :: invs)

/-- C4 counterexample: with `maxSize = 3`, misses on 1,2,3, then a hit
on 2, then a miss on 4.  The claim says inserting 4 evicts key 3; in
fact key 1 — the least recently used — is evicted, and key 3 is still
cached afterwards. -/
theorem memoize_touch_evicts_lru_counterexample :
    memoRun (fun k => Val.vInt (k : Int)) (some 3) ⟨[], []⟩ [1, 2, 3, 2, 4] =
      .ok (⟨[(2, Val.vInt 2), (3, Val.vInt 3), (4, Val.vInt 4)], [3, 2, 4]⟩,
        [true, true, true, false, true]) := rfl

/-- C4 (amended): for `memoize(f, maxSize=3)` — after misses with keys
k1,k2,k3,k4 in order, k1 is the evicted key and a subsequent call with
k1 re-invokes f (scenario A); if instead k2 is touched (a cache hit)
after k3 and before the miss on k4, then inserting k4 evicts k1 — not
k3 — since k1 is then the least recently used key: k3 remains cached
(the later k3 call hits) and a subsequent k1 call re-invokes f
(scenario B).  Recency follows access order: both hits and fresh
insertions move a key to the most-recently-used end of the recency
list. -/
theorem memoize_lru_eviction (fn : Nat → Val) (k1 k2 k3 k4 : Nat)
    (h12 : k1 ≠ k2) (h13 : k1 ≠ k3) (h14 : k1 ≠ k4)
    (h23 : k2 ≠ k3) (h24 : k2 ≠ k4) (h34 : k3 ≠ k4) :
    memoRun fn (some 3) ⟨[], []⟩ [k1, k2, k3, k4, k1] =
      .ok (⟨[(k3, fn k3), (k4, fn k4), (k1, fn k1)], [k3, k4, k1]⟩,
        [true, true, true, true, true])
    ∧ memoRun fn (some 3) ⟨[], []⟩ [k1, k2, k3, k2, k4, k3, k1] =
      .ok (⟨[(k3, fn k3), (k4, fn k4), (k1, fn k1)], [k4, k3, k1]⟩,
        [true, true, true, false, true, false, true]) := by
  have b12 : (k1 == k2) = false := by simp [h12]
  have b21 : (k2 == k1) = false := by simp [Ne.symm h12]
  have b13 : (k1 == k3) = false := by simp [h13]
  have b31 : (k3 == k1) = false := by simp [Ne.symm h13]
  have b14 : (k1 == k4) = false := by simp [h14]
  have b41 : (k4 == k1) = false := by simp [Ne.symm h14]
  have b23 : (k2 == k3) = false := by simp [h23]
  have b32 : (k3 == k2) = false := by simp [Ne.symm h23]
  have b24 : (k2 == k4) = false := by simp [h24]
  have b42 : (k4 == k2) = false := by simp [Ne.symm h24]
  have b34 : (k3 == k4) = false := by simp [h34]
  have b43 : (k4 == k3) = false := by simp [Ne.symm h34]
  constructor <;>
    simp [memoRun, memoStep, cacheLookup, cacheSet, cacheDel, List.lookup,
      List.erase, bne, h12, h13, h14, h23, h24, h34, Ne.symm h12, Ne.symm h13,
      Ne.symm h14, Ne.symm h23, Ne.symm h24, Ne.symm h34,
      b12, b21, b13, b31, b14, b41, b23, b32, b24, b42, b34, b43]

theorem memoize_lru_eviction_witness :
    memoRun (fun k => Val.vInt (k : Int)) (some 3) ⟨[], []⟩ [1, 2, 3, 4, 1] =
      .ok (⟨[(3, Val.vInt 3), (4, Val.vInt 4), (1, Val.vInt 1)], [3, 4, 1]⟩,
        [true, true, true, true, true]) :=
  (memoize_lru_eviction (fun k => Val.vInt (k : Int)) 1 2 3 4 (by decide) (by decide)
    (by decide) (by decide) (by decide) (by decide)).1

/-- C5: `clear_cache()` does NOT restore fresh-cache behavior for a
bounded cache.  First conjunct: a miss on key 1 from the fresh cache
(`maxSize = 1`) fills it.  Second conjunct: a fresh cache handles a
miss on key 2 normally.  Third conjunct: after clearing the filled
cache, the same miss on key 2 raises `KeyError: 1` — the recency list
still holds key 1, the overflow eviction pops it and `del
cache[oldest_key]` fails because the entry dict was emptied. -/
theorem memoize_clear_cache_stale_order :
    (memoRun (fun k => Val.vInt (k : Int)) (some 1) ⟨[], []⟩ [1] =
      .ok (⟨[(1, Val.vInt 1)], [1]⟩, [true]))
    ∧ (memoRun (fun k => Val.vInt (k : Int)) (some 1) ⟨[], []⟩ [2] =
      .ok (⟨[(2, Val.vInt 2)], [2]⟩, [true]))
    ∧ (memoRun (fun k => Val.vInt (k : Int)) (some 1)
        (clearCache ⟨[(1, Val.vInt 1)], [1]⟩) [2] = .error "KeyError: 1") :=
  ⟨rfl, rfl, rfl⟩

/-!
## `curry` (src/fp_decorators/higher_order.py, lines 77-125)

`curry` infers the arity as the number of required non-variadic
parameters (or uses the explicit `arity`); the model carries that
number as a field.  The accumulated Curry State is the pair of the
positional list and the keyword dict. -/

/-- Model of a callable as seen by `curry`: its inferred or explicit
arity and its behavior on a full argument list. -/
structure CurryFunc where
  arity : Nat
  apply : List Val → List (String × Val) → Val

/-- `{**kwargs, **more_kwargs}`: the first dict's keys in order with
values overridden by the second dict on collision, then the second
dict's new keys. -/
def dictMerge (d1 d2 : List (String × Val)) : List (String × Val) :=
  d1.map (fun p => match d2.lookup p.1 with | some v => (p.1, v) | none => p) ++
    d2.filter (fun q => (d1.lookup q.1).isNone)

/-- Result of one application of the curried callable: either the
underlying callable's value (the accumulated count reached the arity)
or a new partial-application closure holding the accumulated state. -/
inductive CurryResult where
  | value (v : Val)
  | moreNeeded (args : List Val) (kwargs : List (String × Val))

/-- `curried(*args, **kwargs)` (`higher_order.py` lines 109-119), with
`args`/`kwargs` the accumulated state: invoke the underlying callable
once `len(args) + len(kwargs) >= fn_arity`, else return a closure. -/
def curried (fn : CurryFunc) (args : List Val) (kwargs : List (String × Val)) :
    CurryResult :=
  if fn.arity ≤ args.length + kwargs.length then .value (fn.apply args kwargs)
  else .moreNeeded args kwargs

/-- `inner(*more_args, **more_kwargs)` (lines 113-117): append the new
positional arguments, merge the keyword dicts (later values win) and
re-enter the curry logic. -/
def curriedNext (fn : CurryFunc) (args : List Val) (kwargs : List (String × Val))
    (moreArgs : List Val) (moreKwargs : List (String × Val)) : CurryResult :=
  curried fn (args ++ moreArgs) (dictMerge kwargs moreKwargs)

/-- C6: for a callable of arity n split into two non-empty positional
groups g1, g2 with |g1| + |g2| = n, `curry(f)(*g1)` returns a
partial-application closure holding exactly g1, applying that closure
to g2 invokes `f` on `g1 ++ g2` — so `curry(f)(*g1)(*g2)` equals
`f(*g1, *g2)` — and supplying all n arguments at once invokes `f`
directly. -/
theorem curry_split_application (fn : CurryFunc) (g1 g2 allArgs : List Val)
    (h2 : g2 ≠ []) (hlen : g1.length + g2.length = fn.arity)
    (hall : allArgs.length = fn.arity) :
    curried fn g1 [] = .moreNeeded g1 []
    ∧ curriedNext fn g1 [] g2 [] = .value (fn.apply (g1 ++ g2) [])
    ∧ curried fn allArgs [] = .value (fn.apply allArgs []) := by
  have hg2 : 0 < g2.length := List.length_pos.mpr h2
  refine ⟨?_, ?_, ?_⟩
  · have hlt : ¬ fn.arity ≤ g1.length + List.length ([] : List (String × Val)) := by
      simp only [List.length_nil]
      omega
    simp [curried, hlt]
    omega
  · have hmerge : dictMerge [] [] = [] := rfl
    have hge : fn.arity ≤ (g1 ++ g2).length + List.length ([] : List (String × Val)) := by
      simp only [List.length_append, List.length_nil]
      omega
    simp [curriedNext, hmerge, curried, hge]
    omega
  · have hge : fn.arity ≤ allArgs.length + List.length ([] : List (String × Val)) := by
      simp only [List.length_nil]
      omega
    simp [curried, hge]
    omega

/-- `lambda a,b,c: a+b+c`, arity 3. -/
def add3Fn : CurryFunc where
  arity := 3
  apply := fun args _ =>
    match args with
    | [Val.vInt a, Val.vInt b, Val.vInt c] => Val.vInt (a + b + c)
    | _ => Val.vNone

theorem curry_split_application_witness :
    curried add3Fn [Val.vInt 1] [] = .moreNeeded [Val.vInt 1] []
    ∧ curriedNext add3Fn [Val.vInt 1] [] [Val.vInt 2, Val.vInt 3] [] =
        .value (Val.vInt 6)
    ∧ curried add3Fn [Val.vInt 1, Val.vInt 2, Val.vInt 3] [] =
        .value (Val.vInt 6) := by
  have h := curry_split_application add3Fn [Val.vInt 1] [Val.vInt 2, Val.vInt 3]
    [Val.vInt 1, Val.vInt 2, Val.vInt 3] (by simp) rfl rfl
  exact ⟨h.1, h.2.1, h.2.2⟩

/-!
## `compose` and `pipe` (src/fp_decorators/higher_order.py, lines 27-74)
-/

/-- `compose(*funcs)`: right-to-left application; the empty case is the
identity function. -/
def compose {α : Type} (funcs : List (α → α)) : α → α :=
  if funcs.isEmpty then fun x => x
  else fun x => funcs.reverse.foldl (fun result f => f result) x

/-- `pipe(*funcs)`: left-to-right application; the empty case is the
identity function. -/
def pipe {α : Type} (funcs : List (α → α)) : α → α :=
  if funcs.isEmpty then fun x => x
  else fun x => funcs.foldl (fun result f => f result) x

/-- C7: for every finite list of unary callables and every value,
`compose(*fs)(x) = pipe(*reversed(fs))(x)`, and both are the identity
when given no functions. -/
theorem compose_eq_pipe_reverse {α : Type} (funcs : List (α → α)) (x : α) :
    compose funcs x = pipe funcs.reverse x
    ∧ compose ([] : List (α → α)) x = x
    ∧ pipe ([] : List (α → α)) x = x := by
  refine ⟨?_, rfl, rfl⟩
  cases funcs with
  | nil => rfl
  | cons f fs =>
    have hrev : ((f :: fs).reverse).isEmpty = false := by
      simp
    simp [compose, pipe, hrev]

/-!
## `map_reduce` (src/fp_decorators/higher_order.py, lines 213-251)

Python's default for `initial_value` is `None`, and an explicitly
passed `None` is indistinguishable from an absent argument; `Val.vNone`
plays that role and the `initial_value is not None` test is modelled by
comparison with `Val.vNone`. -/

/-- `map_reduce(mapper, reducer, initial_value)` applied to a
collection: map every element, return `initial_value` on the empty
result, otherwise fold left-to-right — seeded by `initial_value` when
it is not `None`, else seeded by the first mapped element, starting
from the second. -/
def map_reduce (mapper : Val → Val) (reducer : Val → Val → Val)
    (initial_value : Val) (collection : List Val) : Val :=
  let mapped := collection.map mapper
  match mapped with
  | [] => initial_value
  | m0 :: rest =>
    if initial_value ≠ Val.vNone then (m0 :: rest).foldl reducer initial_value
    else rest.foldl reducer m0

/-- `lambda x: x*x` on ints. -/
def exSquare : Val → Val
  | .vInt n => .vInt (n * n)
  | v => v

/-- `lambda a,b: a+b` on ints. -/
def exAdd : Val → Val → Val
  | .vInt a, .vInt b => .vInt (a + b)
  | a, _ => a

/-- C8: with a provided non-null initial value, the returned callable
maps every element and folds the mapped results left-to-right seeded by
the initial value; on the empty sequence it returns the initial value.
In particular sum-of-squares with initial 0 gives 30 on [1,2,3,4] and 0
on [].  (A provided initial of `None` is indistinguishable from an
absent one and is covered by the companion theorem on `None`
initials.) -/
theorem map_reduce_seeded_fold (mapper : Val → Val) (reducer : Val → Val → Val)
    (initial_value : Val) (hinit : initial_value ≠ Val.vNone) :
    (∀ collection : List Val,
      map_reduce mapper reducer initial_value collection =
        (collection.map mapper).foldl reducer initial_value)
    ∧ map_reduce mapper reducer initial_value [] = initial_value
    ∧ map_reduce exSquare exAdd (Val.vInt 0)
        [Val.vInt 1, Val.vInt 2, Val.vInt 3, Val.vInt 4] = Val.vInt 30
    ∧ map_reduce exSquare exAdd (Val.vInt 0) [] = Val.vInt 0 := by
  refine ⟨?_, rfl, rfl, rfl⟩
  intro collection
  cases collection with
  | nil => rfl
  | cons c cs => simp [map_reduce, hinit]

theorem map_reduce_seeded_fold_witness :
    (Val.vInt 0 ≠ Val.vNone)
    ∧ map_reduce exSquare exAdd (Val.vInt 0)
        [Val.vInt 1, Val.vInt 2, Val.vInt 3, Val.vInt 4] = Val.vInt 30 :=
  ⟨by decide, (map_reduce_seeded_fold exSquare exAdd (Val.vInt 0) (by decide)).2.2.1⟩

/-- C10: an explicitly supplied initial value of `None` behaves exactly
like an absent initial (in Python the two cases are the same call): on
the empty sequence the call returns `None` without raising, and on a
non-empty sequence the first mapped element seeds the fold, which
starts from the second element. -/
theorem map_reduce_none_initial (mapper : Val → Val) (reducer : Val → Val → Val) :
    map_reduce mapper reducer Val.vNone [] = Val.vNone
    ∧ ∀ (x : Val) (xs : List Val),
        map_reduce mapper reducer Val.vNone (x :: xs) =
          (xs.map mapper).foldl reducer (mapper x) := by
  refine ⟨rfl, ?_⟩
  intro x xs
  simp [map_reduce]

/-!
## `trampoline` (src/fp_decorators/higher_order.py, lines 254-285)

The wrapped callable's possible results are modelled by `Step`: a
plain non-callable value, a type constructor (callable, but exempted
from forcing by the `isinstance(result, type)` test), or a
zero-argument thunk whose invocation yields the next step. -/

/-- Result of the wrapped callable and of each thunk invocation. -/
inductive Step where
  | value (v : Val)
  | typeCtor (name : String)
  | thunk (next : Step)

/-- The `while callable(result) and not isinstance(result, type)` loop
(lines 280-281): keep invoking while the result is a thunk; plain
values and type constructors end the loop and are returned as they
are. -/
def runTrampoline : Step → Step
  | .thunk s => runTrampoline s
  | .value v => .value v
  | .typeCtor n => .typeCtor n

/-- The spec's factorial-style accumulator,
`factorial(n, acc=1): if n <= 1: return acc;
return lambda: factorial(n-1, n*acc)`. -/
def factStep (n : Nat) (acc : Int) : Step :=
  if n ≤ 1 then .value (Val.vInt acc)
  else .thunk (factStep (n - 1) ((n : Int) * acc))
termination_by n
decreasing_by omega

/-- C9: the trampoline loop replaces a thunk by the result of invoking
it until a non-thunk is produced, leaves non-callable values and type
constructors untouched, and for the factorial-style accumulator it
terminates with the correct factorial value — in particular 100! for
n = 100, acc = 1. -/
theorem trampoline_factorial (n : Nat) (acc : Int) :
    runTrampoline (factStep n acc) = .value (Val.vInt (acc * (n.factorial : Int)))
    ∧ runTrampoline (factStep 100 1) =
        .value (Val.vInt ((Nat.factorial 100 : Nat) : Int))
    ∧ (∀ v : Val, runTrampoline (.value v) = .value v)
    ∧ (∀ s : String, runTrampoline (.thunk (.typeCtor s)) = .typeCtor s) := by
  have main : ∀ (n : Nat) (acc : Int),
      runTrampoline (factStep n acc) = .value (Val.vInt (acc * (n.factorial : Int))) := by
    intro n
    induction n using Nat.strong_induction_on with
    | _ n ih =>
      intro acc
      by_cases h : n ≤ 1
      · have hfact : n.factorial = 1 := by
          interval_cases n <;> rfl
        rw [factStep, if_pos h]
        simp [runTrampoline, hfact]
      · rw [factStep, if_neg h]
        have hrec := ih (n - 1) (by omega) ((n : Int) * acc)
        simp only [runTrampoline]
        rw [hrec]
        have hfact : n.factorial = n * (n - 1).factorial := by
          cases n with
          | zero => omega
          | succ m => simp [Nat.factorial_succ]
        rw [hfact]
        push_cast
        ring_nf
  refine ⟨main n acc, ?_, fun v => rfl, fun s => rfl⟩
  have h100 := main 100 1
  simpa using h100

end FP
